import Mathlib

/-!
Verification development for the taskr task-orchestration engine.

The Rust sources are shallowly embedded: `HashMap` fields become association
lists, fallible functions return `Except`, and the process/IO boundary
(spawning, regex matching) is abstracted as oracle parameters.  Functions that
main.rs calls but whose definitions are not part of the sources here
(`has_task`, `get_task`, `get_exec_order`, the output classifier) are modelled
from the specification and marked as such in their doc comments.
-/

namespace Taskr

deriving instance DecidableEq for Except

/-- Embeds `Pattern` from config.rs: one regex rule of a parser. -/
structure Pattern where
  regex : String
  level : String
  extract : Option String
  action : Option String
deriving DecidableEq, Repr

/-- Embeds `Parser` from config.rs: an ordered sequence of patterns. -/
structure Parser where
  patterns : List Pattern
deriving DecidableEq, Repr

/-- Embeds `Task` from config.rs.  `HashMap<String,String>` for `env` is
modelled as an association list; `u16` as `Nat`. -/
structure Task where
  command : String
  description : Option String
  parsers : Option (List String)
  watch_files : Option (List String)
  depends_on : Option (List String)
  auto_restart : Option Bool
  port_check : Option Nat
  env : Option (List (String × String))
  working_dir : Option String
deriving DecidableEq, Repr

/-- Embeds `GlobalConfig` from config.rs. -/
structure GlobalConfig where
  log_level : Option String
  max_parallel : Option Nat
  output_dir : Option String
deriving DecidableEq, Repr

/-- Embeds `Config` from config.rs.  The two `HashMap`s are modelled as
association lists (iteration order of the Rust `HashMap` is arbitrary; the
list fixes one order). -/
structure Config where
  global : Option GlobalConfig
  tasks : List (String × Task)
  parsers : Option (List (String × Parser))
deriving DecidableEq, Repr

/-- Embeds `ConfigError` from config.rs (payloads of the file/parse variants
reduced to strings; they are produced by external collaborators). -/
inductive ConfigError where
  | FileRead (path : String)
  | ParseError (msg : String)
  | InvalidDependency (task : String) (dependency : String)
  | InvalidParser (task : String) (parser : String)
  | CircularDependency (task : String)
deriving DecidableEq, Repr

/-- `tasks.contains_key(k)` on the embedded task map. -/
def Config.containsTask (cfg : Config) (k : String) : Bool :=
  cfg.tasks.any (fun q => q.1 == k)

/-- `parser_configs.contains_key(p)` on the embedded parser map, `false`
when the `parsers` section is absent. -/
def Config.containsParser (cfg : Config) (p : String) : Bool :=
  match cfg.parsers with
  | some pm => pm.any (fun q => q.1 == p)
  | none => false

/-- Embeds the body of the per-task iteration of `Config::validate`
(config.rs lines 87-119): first dependency that is not a declared task
aborts with `InvalidDependency`; then the first parser reference that is not
a declared parser aborts with `InvalidParser` (when no `parsers` section
exists, the first listed parser aborts).  The trailing cycle check is an
unimplemented `TODO` in the source. -/
def validateTask (cfg : Config) (name : String) (tk : Task) :
    Except ConfigError Unit :=
  match (tk.depends_on.getD []).find? (fun d => !(cfg.containsTask d)) with
  | some d => .error (.InvalidDependency name d)
  | none =>
    match tk.parsers with
    | none => .ok ()
    | some ps =>
      match cfg.parsers with
      | some pm =>
        match ps.find? (fun p => !(pm.any (fun q => q.1 == p))) with
        | some p => .error (.InvalidParser name p)
        | none => .ok ()
      | none =>
        match ps with
        | [] => .ok ()
        | p :: _ => .error (.InvalidParser name p)

/-- The `for (task_name, task) in &self.tasks` loop of `Config::validate`,
returning the first error encountered in iteration order. -/
def validateTasks (cfg : Config) : List (String × Task) → Except ConfigError Unit
  | [] => .ok ()
  | (n, tk) :: rest =>
    match validateTask cfg n tk with
    | .error e => .error e
    | .ok () => validateTasks cfg rest

/-- Embeds `Config::validate` (config.rs lines 85-122). -/
def Config.validate (cfg : Config) : Except ConfigError Unit :=
  validateTasks cfg cfg.tasks

/-- Embeds `Config::load_from_string` (config.rs lines 76-82) after the
external TOML parse: validation of the already-parsed configuration. -/
def Config.load_from_string (cfg : Config) : Except ConfigError Config :=
  match cfg.validate with
  | .error e => .error e
  | .ok () => .ok cfg

/-- Embeds `Config::get_global_config` (config.rs lines 152-158): the stored
global section, or the built-in defaults when the whole section is absent. -/
def Config.get_global_config (cfg : Config) : GlobalConfig :=
  cfg.global.getD
    { log_level := some "info", max_parallel := some 4,
      output_dir := some ".task-logs" }

/-- Embeds `Config::get_root_tasks` (config.rs lines 162-170). -/
def Config.get_root_tasks (cfg : Config) : List String :=
  (cfg.tasks.filter (fun q =>
    match q.2.depends_on with
    | none => true
    | some deps => deps.isEmpty)).map (fun q => q.1)

/-- Embeds `Config::get_dependent_tasks` (config.rs lines 172-182): the tasks
whose `depends_on` mentions `name`. -/
def Config.get_dependent_tasks (cfg : Config) (name : String) : List String :=
  (cfg.tasks.filter (fun q =>
    match q.2.depends_on with
    | none => false
    | some deps => deps.contains name)).map (fun q => q.1)

/-- Modelled from the spec: `hasTask(name)` (§4.1 "Queries exposed"), called
as `config.has_task` in main.rs but absent from the sources here. -/
def Config.has_task (cfg : Config) (name : String) : Bool :=
  cfg.containsTask name

/-- Modelled from the spec: `task(name)` (§4.1 "Queries exposed"), called as
`config.get_task` in main.rs but absent from the sources here. -/
def Config.get_task (cfg : Config) (name : String) : Option Task :=
  (cfg.tasks.find? (fun q => q.1 == name)).map (fun q => q.2)

/-- The `depends_on` list of a declared task, `[]` for an undeclared name. -/
def depsOf (cfg : Config) (x : String) : List String :=
  match cfg.get_task x with
  | some tk => tk.depends_on.getD []
  | none => []

/-- The declared task names, in declaration order. -/
def taskNames (cfg : Config) : List String :=
  cfg.tasks.map (fun q => q.1)

/-- One dependency edge of the task graph: `x` depends directly on `d`. -/
def DepEdge (cfg : Config) (x d : String) : Prop :=
  d ∈ depsOf cfg x

/-- Reflexive-transitive reachability along dependency edges. -/
inductive ReachDep (cfg : Config) : String → String → Prop where
  | refl (x : String) : ReachDep cfg x x
  | step {x d y : String} : DepEdge cfg x d → ReachDep cfg d y → ReachDep cfg x y

/-- `d` is a (direct or transitive, strict) dependency of `t`. -/
def TransDep (cfg : Config) (t d : String) : Prop :=
  ∃ e, DepEdge cfg t e ∧ ReachDep cfg e d

/-- The dependency graph has no directed cycle. -/
def Acyclic (cfg : Config) : Prop :=
  ∀ x, ¬ TransDep cfg x x

/-- Append to `acc` the elements of `xs` that are not already present. -/
def addNew (acc : List String) (xs : List String) : List String :=
  xs.foldl (fun a d => if a.contains d then a else a ++ [d]) acc

/-- One round of dependency-closure expansion: add every member's direct
dependencies. -/
def closureStep (cfg : Config) (s : List String) : List String :=
  s.foldl (fun a x => addNew a (depsOf cfg x)) s

/-- Iterated closure expansion with explicit fuel. -/
def closureIter (cfg : Config) : Nat → List String → List String
  | 0, s => s
  | n + 1, s => closureIter cfg n (closureStep cfg s)

/-- Modelled from the spec: the "transitive closure of dependencies reachable
from `taskName` (including itself)" of §4.2; part of `get_exec_order`, which
main.rs calls but whose definition is not among the sources here.  The fuel
`tasks.length + 1` saturates the expansion on validated graphs. -/
def closureList (cfg : Config) (t : String) : List String :=
  closureIter cfg (cfg.tasks.length + 1) [t]

/-- A name set closed under taking direct dependencies. -/
def Saturated (cfg : Config) (s : List String) : Prop :=
  ∀ x ∈ s, ∀ d ∈ depsOf cfg x, d ∈ s

instance (cfg : Config) (x d : String) : Decidable (DepEdge cfg x d) :=
  inferInstanceAs (Decidable (d ∈ depsOf cfg x))

instance (cfg : Config) (s : List String) : Decidable (Saturated cfg s) :=
  inferInstanceAs (Decidable (∀ x ∈ s, ∀ d ∈ depsOf cfg x, d ∈ s))

/-- Lexicographic (byte-order) comparison on task names. -/
def strLE (a b : String) : Bool :=
  match compare a b with
  | .gt => false
  | _ => true

/-- Insertion into a `strLE`-sorted list. -/
def insertSorted (x : String) : List String → List String
  | [] => [x]
  | y :: ys => if strLE x y then x :: y :: ys else y :: insertSorted x ys

/-- Insertion sort by `strLE`: the deterministic lexicographic secondary key
required by §4.2. -/
def sortStrings (l : List String) : List String :=
  l.foldr insertSorted []

/-- A task is ready when each of its dependencies is already emitted or is
not among the still-pending tasks. -/
def readyTask (cfg : Config) (acc pending : List String) (x : String) : Bool :=
  (depsOf cfg x).all (fun d => acc.contains d || !(pending.contains d))

/-- Modelled from the spec: Kahn-style topological sorting of the induced
subgraph (§4.2); repeatedly emits the first ready task of the (sorted)
pending list.  `acc` holds the emitted tasks most-recent-first; the Bool
records whether all pending tasks were emitted (fail closed otherwise). -/
def topoLoop (cfg : Config) : Nat → List String → List String → List String × Bool
  | 0, acc, pending => (acc.reverse, pending.isEmpty)
  | n + 1, acc, pending =>
    match pending.find? (readyTask cfg acc pending) with
    | none => (acc.reverse, pending.isEmpty)
    | some x => topoLoop cfg n (x :: acc) (pending.erase x)

/-- Errors of the dependency resolver (§4.2). -/
inductive ExecError where
  | TaskNotFound (name : String)
  | Stuck
deriving DecidableEq, Repr

/-- Modelled from the spec: `executionOrder(taskName)` (§4.2) — the linear
execution order of the requested task's transitive dependency closure,
topologically sorted with lexicographic tie-break.  Called as
`config.get_exec_order` in main.rs but absent from the sources here. -/
def Config.get_exec_order (cfg : Config) (t : String) : Except ExecError (List String) :=
  if cfg.has_task t then
    let pend := sortStrings (closureList cfg t)
    match topoLoop cfg pend.length [] pend with
    | (order, true) => .ok order
    | (_, false) => .error .Stuck
  else .error (.TaskNotFound t)

/-- Position of the first occurrence of `x` (length of the list when absent). -/
def posOf (x : String) : List String → Nat
  | [] => 0
  | y :: l => if y = x then 0 else posOf x l + 1

/-- Every task of `l` is preceded by all of its direct dependencies that lie
in `univ`: however `l` is split as `l1 ++ y :: l2`, the dependencies of `y`
inside `univ` are all in `l1`. -/
def depsRespected (cfg : Config) (univ : List String) (l : List String) : Prop :=
  ∀ l1 y l2, l = l1 ++ y :: l2 → ∀ d ∈ depsOf cfg y, d ∈ univ → d ∈ l1

/-- The reversed-accumulator variant of `depsRespected`, matching the shape
of `topoLoop`'s accumulator (most recently emitted first). -/
def depsRespectedRev (cfg : Config) (univ : List String) (acc : List String) : Prop :=
  ∀ a1 y a2, acc = a1 ++ y :: a2 → ∀ d ∈ depsOf cfg y, d ∈ univ → d ∈ a2

/-- Errors of `run_command` (main.rs lines 100-184): empty command line,
spawn failure, or nonzero exit. -/
inductive CmdError where
  | EmptyCommand
  | SpawnFailed (command : String)
  | CommandFailed (command : String) (code : Int)
deriving DecidableEq, Repr

/-- The Unicode White_Space property, the class Rust's `char::is_whitespace`
(and hence `str::split_whitespace`) splits on: U+0009–U+000D, U+0020,
U+0085, U+00A0, U+1680, U+2000–U+200A, U+2028, U+2029, U+202F, U+205F and
U+3000.  Lean's `Char.isWhitespace` covers only space/tab/CR/LF and is
therefore not used. -/
def isUnicodeWs (c : Char) : Bool :=
  let n := c.toNat
  (0x9 ≤ n && n ≤ 0xD) || n == 0x20 || n == 0x85 || n == 0xA0 || n == 0x1680 ||
    (0x2000 ≤ n && n ≤ 0x200A) || n == 0x2028 || n == 0x2029 || n == 0x202F ||
    n == 0x205F || n == 0x3000

/-- One step of Rust's `str::split_whitespace`: accumulate the finished
tokens and the current (reversed) token. -/
def splitWsStep (acc : List String × List Char) (c : Char) : List String × List Char :=
  if isUnicodeWs c then
    match acc.2 with
    | [] => (acc.1, [])
    | cur => (acc.1 ++ [String.mk cur.reverse], [])
  else (acc.1, c :: acc.2)

/-- Embeds `task.command.split_whitespace()`: the maximal runs of characters
outside Unicode White_Space, in order, with no empty tokens. -/
def splitWs (s : String) : List String :=
  let r := s.data.foldl splitWsStep ([], [])
  match r.2 with
  | [] => r.1
  | cur => r.1 ++ [String.mk cur.reverse]

/-- Embeds `run_command` (main.rs lines 100-184).  The process boundary is
abstracted: `spawn cmd args` is `none` when the OS fails to start the
process and `some code` when the spawned process runs and exits with
`code`; the concurrent stdout/stderr forwarding has no bearing on the
result and is omitted. -/
def run_command (spawn : String → List String → Option Int) (tk : Task) :
    Except CmdError Unit :=
  match splitWs tk.command with
  | [] => .error .EmptyCommand
  | cmd :: args =>
    match spawn cmd args with
    | none => .error (.SpawnFailed tk.command)
    | some code => if code = 0 then .ok () else .error (.CommandFailed tk.command code)

/-- Errors of `run_task_with_deps` (main.rs lines 58-98).  `MissingTask`
models the `.unwrap()` panic on `config.get_task`, unreachable for orders
produced from a validated configuration. -/
inductive RunError where
  | TaskNotFound (name : String)
  | ExecOrderFailed
  | MissingTask (name : String)
  | CommandError (name : String) (e : CmdError)
deriving DecidableEq, Repr

/-- The `for task in exec_order` loop of `run_task_with_deps` (main.rs lines
75-95): runs each task in order and stops at the first failure.  Returns
the list of tasks that were started together with the outcome. -/
def runLoop (cfg : Config) (spawn : String → List String → Option Int) :
    List String → List String × Except RunError Unit
  | [] => ([], .ok ())
  | t :: rest =>
    match cfg.get_task t with
    | none => ([], .error (.MissingTask t))
    | some tk =>
      match run_command spawn tk with
      | .error e => ([t], .error (.CommandError t e))
      | .ok () =>
        let r := runLoop cfg spawn rest
        (t :: r.1, r.2)

/-- Embeds `run_task_with_deps` (main.rs lines 58-98): existence check,
execution-order computation, then the sequential run loop. -/
def run_task_with_deps (cfg : Config) (spawn : String → List String → Option Int)
    (name : String) : List String × Except RunError Unit :=
  if cfg.has_task name then
    match cfg.get_exec_order name with
    | .error _ => ([], .error .ExecOrderFailed)
    | .ok order => runLoop cfg spawn order
  else ([], .error (.TaskNotFound name))

/-- Modelled from the spec: the classified event of §4.3 —
`Event{level, extractedFields, action}` with at most one extracted field. -/
structure Event where
  level : String
  extracted : Option (String × String)
  action : Option String
deriving DecidableEq, Repr

/-- Modelled from the spec: `classify(parserSet, rawLine)` (§4.3).  The
Output Classifier is described in spec.md but absent from the sources here.
Regex evaluation is delegated to the external regex engine, abstracted as
the match predicate `rmatch` and the first-capture-group extractor `cap`.
The first pattern whose regex matches the line wins; a line matching no
pattern passes through at level "info" with no extraction and no action. -/
def classify (rmatch : String → String → Bool) (cap : String → String → String)
    (pats : List Pattern) (line : String) : Event :=
  match pats.find? (fun p => rmatch p.regex line) with
  | some p =>
    { level := p.level
      extracted := p.extract.map (fun f => (f, cap p.regex line))
      action := p.action }
  | none => { level := "info", extracted := none, action := none }

/-- Modelled from the spec: the patterns of all parsers bound to a task,
concatenated "in the order the parsers were bound to the task" (§4.3). -/
def boundPatterns (cfg : Config) (tk : Task) : List Pattern :=
  (tk.parsers.getD []).foldr
    (fun pn acc =>
      (match cfg.parsers with
       | some pm =>
         match pm.find? (fun q => q.1 == pn) with
         | some q => q.2.patterns
         | none => []
       | none => []) ++ acc)
    []

/-- Some task's `depends_on` names an undeclared task. -/
def danglingDeps (cfg : Config) : Bool :=
  cfg.tasks.any (fun q => (q.2.depends_on.getD []).any (fun d => !(cfg.containsTask d)))

/-- Some task's `parsers` names an undeclared parser (in particular any
parser reference when no `parsers` section exists). -/
def danglingParsers (cfg : Config) : Bool :=
  cfg.tasks.any (fun q => (q.2.parsers.getD []).any (fun p => !(cfg.containsParser p)))

/-- A task record with only the fields the claims exercise. -/
def mkTask (cmd : String) (deps : Option (List String)) (ps : Option (List String)) : Task :=
  { command := cmd, description := none, parsers := ps, watch_files := none
    depends_on := deps, auto_restart := none, port_check := none, env := none
    working_dir := none }

/-- The chain of §8: install (no deps), build (deps: install),
test (deps: build). -/
def chainCfg : Config :=
  { global := none
    tasks := [("install", mkTask "yarn install" none none),
              ("build", mkTask "yarn build" (some ["install"]) none),
              ("test", mkTask "yarn test" (some ["build"]) none)]
    parsers := none }

/-- Cyclic configuration: a depends on b and b depends on a. -/
def cycCfgAB : Config :=
  { global := none
    tasks := [("a", mkTask "echo a" (some ["b"]) none),
              ("b", mkTask "echo b" (some ["a"]) none)]
    parsers := none }

/-- The same cycle with the declaration order of the two tasks swapped. -/
def cycCfgBA : Config :=
  { global := none
    tasks := [("b", mkTask "echo b" (some ["a"]) none),
              ("a", mkTask "echo a" (some ["b"]) none)]
    parsers := none }

/-- Diamond-free fan-in: t depends on the two independent tasks a and b. -/
def fanCfg : Config :=
  { global := none
    tasks := [("a", mkTask "ca" none none),
              ("b", mkTask "cb" none none),
              ("t", mkTask "ct" (some ["a", "b"]) none)]
    parsers := none }

/-- Valid configuration of the parse-basic test: install, dev depending on
install and bound to the yarn-install parser. -/
def cleanCfg : Config :=
  { global := some { log_level := some "debug", max_parallel := some 2, output_dir := none }
    tasks := [("install", mkTask "yarn install" none none),
              ("dev", mkTask "yarn dev" (some ["install"]) (some ["yarn-install"]))]
    parsers := some [("yarn-install",
      { patterns := [{ regex := "warning (.+)", level := "warn", extract := none, action := none },
                     { regex := "error (.+)", level := "error", extract := none, action := none }] })] }

/-- Configuration of the invalid-dependency test: dev depends on a task that
is not declared. -/
def badDepCfg : Config :=
  { global := none
    tasks := [("dev", mkTask "yarn dev" (some ["nonexistent"]) none)]
    parsers := none }

/-- A task references a parser although no `parsers` section exists. -/
def badParserCfg : Config :=
  { global := none
    tasks := [("dev", mkTask "yarn dev" none (some ["nope"]))]
    parsers := none }

/-- A `global` section that sets `log_level` but leaves `max_parallel` and
`output_dir` absent. -/
def partialGlobalCfg : Config :=
  { global := some { log_level := some "debug", max_parallel := none, output_dir := none }
    tasks := []
    parsers := none }

/-- A configuration with no `global` section at all. -/
def noGlobalCfg : Config :=
  { global := none
    tasks := [("install", mkTask "yarn install" none none)]
    parsers := none }

/-- Configuration of the root-tasks test: install, dev (deps: install),
test (no deps). -/
def rootCfg : Config :=
  { global := none
    tasks := [("install", mkTask "yarn install" none none),
              ("dev", mkTask "yarn dev" (some ["install"]) none),
              ("test", mkTask "yarn test" none none)]
    parsers := none }

/-- The warning pattern of the yarn-install parser. -/
def warnPat : Pattern :=
  { regex := "warning (.+)", level := "warn", extract := some "message", action := none }

/-- The error pattern of the yarn-install parser. -/
def errPat : Pattern :=
  { regex := "error (.+)", level := "error", extract := some "message", action := none }

/-- Configuration binding the two-pattern yarn-install parser to dev. -/
def parserCfg : Config :=
  { global := none
    tasks := [("dev", mkTask "yarn dev" none (some ["yarn-install"]))]
    parsers := some [("yarn-install", { patterns := [warnPat, errPat] })] }

/-- The dev task of `parserCfg`. -/
def devTask : Task :=
  mkTask "yarn dev" none (some ["yarn-install"])

/-- A task whose command consists only of whitespace. -/
def wsTask : Task :=
  mkTask "   " none none

/-- A task whose command is a single form feed (U+000C): Unicode whitespace
outside the space/tab/CR/LF set of Lean's `Char.isWhitespace`. -/
def ffTask : Task :=
  mkTask "\x0C" none none

/-- A task with a two-token command line. -/
def yarnTask : Task :=
  mkTask "yarn install" none none

/-! ### Basic lemmas about the configuration queries -/

theorem containsTask_iff (cfg : Config) (d : String) :
    cfg.containsTask d = true ↔ d ∈ taskNames cfg := by
  simp [Config.containsTask, taskNames, List.any_eq_true]

theorem get_task_mem {cfg : Config} {x : String} {tk : Task}
    (h : cfg.get_task x = some tk) : (x, tk) ∈ cfg.tasks := by
  unfold Config.get_task at h
  cases hf : cfg.tasks.find? (fun q => q.1 == x) with
  | none => rw [hf] at h; cases h
  | some q =>
    rw [hf] at h
    have hq : q ∈ cfg.tasks := List.mem_of_find?_eq_some hf
    have hx : q.1 = x := by simpa using List.find?_some hf
    have htk : q.2 = tk := by simpa using h
    obtain ⟨a, b⟩ := q
    simp only at hx htk
    rw [← hx, ← htk]
    exact hq

theorem get_task_isSome_of_has_task {cfg : Config} {x : String}
    (h : cfg.has_task x = true) : ∃ tk, cfg.get_task x = some tk := by
  unfold Config.has_task Config.containsTask at h
  rw [List.any_eq_true] at h
  obtain ⟨q, hq, hqx⟩ := h
  have hs : (cfg.tasks.find? (fun q => q.1 == x)).isSome := by
    rw [List.find?_isSome]; exact ⟨q, hq, hqx⟩
  unfold Config.get_task
  cases hf : cfg.tasks.find? (fun q => q.1 == x) with
  | none => rw [hf] at hs; cases hs
  | some p => exact ⟨p.2, rfl⟩

theorem depsOf_mem {cfg : Config} {x d : String} (h : d ∈ depsOf cfg x) :
    ∃ tk, cfg.get_task x = some tk ∧ d ∈ tk.depends_on.getD [] := by
  unfold depsOf at h
  cases hg : cfg.get_task x with
  | none => rw [hg] at h; cases h
  | some tk => rw [hg] at h; exact ⟨tk, rfl, h⟩

theorem has_task_of_mem {cfg : Config} {x : String} {tk : Task}
    (h : (x, tk) ∈ cfg.tasks) : cfg.has_task x = true := by
  unfold Config.has_task Config.containsTask
  rw [List.any_eq_true]
  exact ⟨(x, tk), h, by simp⟩

theorem depEdge_left_declared {cfg : Config} {x d : String}
    (h : DepEdge cfg x d) : cfg.has_task x = true := by
  obtain ⟨tk, hg, _⟩ := depsOf_mem h
  exact has_task_of_mem (get_task_mem hg)

/-! ### Characterizing `Config::validate` -/

theorem validateTask_ok_iff (cfg : Config) (n : String) (tk : Task) :
    validateTask cfg n tk = .ok () ↔
      (∀ d ∈ tk.depends_on.getD [], cfg.containsTask d = true) ∧
      (∀ p ∈ tk.parsers.getD [], cfg.containsParser p = true) := by
  cases hfd : (tk.depends_on.getD []).find? (fun d => !(cfg.containsTask d)) with
  | some d =>
    have hd : d ∈ tk.depends_on.getD [] := List.mem_of_find?_eq_some hfd
    have hc : cfg.containsTask d = false := by simpa using List.find?_some hfd
    have heq : validateTask cfg n tk = .error (.InvalidDependency n d) := by
      simp only [validateTask, hfd]
    rw [heq]
    constructor
    · intro h; cases h
    · rintro ⟨h1, -⟩
      rw [h1 d hd] at hc; cases hc
  | none =>
    have hdeps : ∀ d ∈ tk.depends_on.getD [], cfg.containsTask d = true := by
      intro d hd
      have := (List.find?_eq_none.mp hfd) d hd
      simpa using this
    cases hps : tk.parsers with
    | none =>
      have heq : validateTask cfg n tk = .ok () := by
        simp only [validateTask, hfd, hps]
      rw [heq]
      refine iff_of_true rfl ⟨hdeps, ?_⟩
      intro p hp
      simp at hp
    | some ps =>
      cases hpm : cfg.parsers with
      | some pm =>
        cases hfp : ps.find? (fun p => !(pm.any (fun q => q.1 == p))) with
        | some p =>
          have hp : p ∈ ps := List.mem_of_find?_eq_some hfp
          have hc : pm.any (fun q => q.1 == p) = false := by
            simpa using List.find?_some hfp
          have heq : validateTask cfg n tk = .error (.InvalidParser n p) := by
            simp only [validateTask, hfd, hps, hpm, hfp]
          rw [heq]
          constructor
          · intro h; cases h
          · rintro ⟨-, h2⟩
            have := h2 p (by simpa using hp)
            rw [Config.containsParser.eq_def, hpm] at this
            simp only at this
            rw [this] at hc; cases hc
        | none =>
          have hpars : ∀ p ∈ (some ps).getD ([] : List String), cfg.containsParser p = true := by
            intro p hp
            rw [Option.getD_some] at hp
            have := (List.find?_eq_none.mp hfp) p hp
            rw [Config.containsParser.eq_def, hpm]
            simpa using this
          have heq : validateTask cfg n tk = .ok () := by
            simp only [validateTask, hfd, hps, hpm, hfp]
          rw [heq]
          exact iff_of_true rfl ⟨hdeps, hpars⟩
      | none =>
        cases hpsnil : ps with
        | nil =>
          have heq : validateTask cfg n tk = .ok () := by
            simp only [validateTask, hfd, hps, hpm, hpsnil]
          rw [heq]
          refine iff_of_true rfl ⟨hdeps, ?_⟩
          intro p hp
          simp at hp
        | cons p rest =>
          have heq : validateTask cfg n tk = .error (.InvalidParser n p) := by
            simp only [validateTask, hfd, hps, hpm, hpsnil]
          rw [heq]
          constructor
          · intro h; cases h
          · rintro ⟨-, h2⟩
            have := h2 p (by simp)
            rw [Config.containsParser.eq_def, hpm] at this
            cases this

theorem validateTasks_ok_iff (cfg : Config) : ∀ l : List (String × Task),
    validateTasks cfg l = .ok () ↔ ∀ q ∈ l, validateTask cfg q.1 q.2 = .ok () := by
  intro l
  induction l with
  | nil => simp [validateTasks]
  | cons q rest ih =>
    obtain ⟨n, tk⟩ := q
    unfold validateTasks
    cases hv : validateTask cfg n tk with
    | error e =>
      simp only []
      constructor
      · intro h; cases h
      · intro h
        have := h (n, tk) (by simp)
        simp only at this
        rw [hv] at this; cases this
    | ok u =>
      cases u
      rw [ih]
      constructor
      · intro h q hq
        rcases List.mem_cons.mp hq with h1 | h2
        · rw [h1]; exact hv
        · exact h q h2
      · intro h q hq
        exact h q (List.mem_cons_of_mem _ hq)

theorem danglingDeps_iff (cfg : Config) :
    danglingDeps cfg = true ↔
      ∃ q ∈ cfg.tasks, ∃ d ∈ q.2.depends_on.getD [], cfg.containsTask d = false := by
  simp [danglingDeps, List.any_eq_true]

theorem danglingParsers_iff (cfg : Config) :
    danglingParsers cfg = true ↔
      ∃ q ∈ cfg.tasks, ∃ p ∈ q.2.parsers.getD [], cfg.containsParser p = false := by
  simp [danglingParsers, List.any_eq_true]

theorem validate_ok_of_no_dangling {cfg : Config}
    (hd : danglingDeps cfg = false) (hp : danglingParsers cfg = false) :
    cfg.validate = .ok () := by
  rw [Config.validate, validateTasks_ok_iff]
  intro q hq
  rw [validateTask_ok_iff]
  constructor
  · intro d hdq
    by_contra hc
    have : danglingDeps cfg = true :=
      (danglingDeps_iff cfg).mpr ⟨q, hq, d, hdq, by simpa using hc⟩
    rw [this] at hd; cases hd
  · intro p hpq
    by_contra hc
    have : danglingParsers cfg = true :=
      (danglingParsers_iff cfg).mpr ⟨q, hq, p, hpq, by simpa using hc⟩
    rw [this] at hp; cases hp

theorem no_dangling_of_validate_ok {cfg : Config} (h : cfg.validate = .ok ()) :
    danglingDeps cfg = false ∧ danglingParsers cfg = false := by
  rw [Config.validate, validateTasks_ok_iff] at h
  constructor
  · by_contra hc
    have hc' : danglingDeps cfg = true := by
      cases hdd : danglingDeps cfg with
      | false => exact absurd hdd hc
      | true => rfl
    obtain ⟨q, hq, d, hdq, hcd⟩ := (danglingDeps_iff cfg).mp hc'
    have := ((validateTask_ok_iff cfg q.1 q.2).mp (h q hq)).1 d hdq
    rw [this] at hcd; cases hcd
  · by_contra hc
    have hc' : danglingParsers cfg = true := by
      cases hdd : danglingParsers cfg with
      | false => exact absurd hdd hc
      | true => rfl
    obtain ⟨q, hq, p, hpq, hcp⟩ := (danglingParsers_iff cfg).mp hc'
    have := ((validateTask_ok_iff cfg q.1 q.2).mp (h q hq)).2 p hpq
    rw [this] at hcp; cases hcp

theorem deps_declared_of_validate_ok {cfg : Config} (h : cfg.validate = .ok ())
    {x d : String} (hd : d ∈ depsOf cfg x) : d ∈ taskNames cfg := by
  obtain ⟨tk, hg, hmem⟩ := depsOf_mem hd
  have hq := get_task_mem hg
  rw [Config.validate, validateTasks_ok_iff] at h
  have := ((validateTask_ok_iff cfg x tk).mp (h (x, tk) hq)).1 d hmem
  exact (containsTask_iff cfg d).mp this

theorem validateTasks_err_dep (cfg : Config) : ∀ l : List (String × Task),
    (∃ q ∈ l, ∃ d ∈ q.2.depends_on.getD [], cfg.containsTask d = false) →
    (∀ q ∈ l, ∀ p ∈ q.2.parsers.getD [], cfg.containsParser p = true) →
    ∃ n tk d, validateTasks cfg l = .error (.InvalidDependency n d) ∧
      (n, tk) ∈ l ∧ d ∈ tk.depends_on.getD [] ∧ cfg.containsTask d = false := by
  intro l
  induction l with
  | nil =>
    rintro ⟨q, hq, -⟩ -
    cases hq
  | cons hd0 rest ih =>
    obtain ⟨m, mt⟩ := hd0
    intro hex hpars
    cases hfd : (mt.depends_on.getD []).find? (fun d => !(cfg.containsTask d)) with
    | some d =>
      have hdm : d ∈ mt.depends_on.getD [] := List.mem_of_find?_eq_some hfd
      have hc : cfg.containsTask d = false := by simpa using List.find?_some hfd
      have heqT : validateTask cfg m mt = .error (.InvalidDependency m d) := by
        simp only [validateTask, hfd]
      refine ⟨m, mt, d, ?_, by simp, hdm, hc⟩
      simp only [validateTasks, heqT]
    | none =>
      have hdeps : ∀ d ∈ mt.depends_on.getD [], cfg.containsTask d = true := by
        intro d hdq
        simpa using (List.find?_eq_none.mp hfd) d hdq
      have hokT : validateTask cfg m mt = .ok () := by
        rw [validateTask_ok_iff]
        exact ⟨hdeps, hpars (m, mt) (by simp)⟩
      have hex2 : ∃ q ∈ rest, ∃ d ∈ q.2.depends_on.getD [], cfg.containsTask d = false := by
        obtain ⟨q, hq, d, hdq, hcd⟩ := hex
        rcases List.mem_cons.mp hq with h1 | h2
        · subst h1
          rw [hdeps d (by simpa using hdq)] at hcd
          cases hcd
        · exact ⟨q, h2, d, hdq, hcd⟩
      obtain ⟨n, tk, d, he, hm, hdd, hcc⟩ :=
        ih hex2 (fun q hq => hpars q (List.mem_cons_of_mem _ hq))
      refine ⟨n, tk, d, ?_, List.mem_cons_of_mem _ hm, hdd, hcc⟩
      simp only [validateTasks, hokT, he]

theorem validateTasks_parserFailure (cfg : Config) : ∀ l : List (String × Task),
    (∀ q ∈ l, ∀ d ∈ q.2.depends_on.getD [], cfg.containsTask d = true) →
    (∃ q ∈ l, ∃ p ∈ q.2.parsers.getD [], cfg.containsParser p = false) →
    ∃ n tk p, validateTasks cfg l = .error (.InvalidParser n p) ∧
      (n, tk) ∈ l ∧ p ∈ tk.parsers.getD [] ∧ cfg.containsParser p = false := by
  intro l
  induction l with
  | nil =>
    rintro - ⟨q, hq, -⟩
    cases hq
  | cons hd0 rest ih =>
    obtain ⟨m, mt⟩ := hd0
    intro hdeps hex
    have hfd : (mt.depends_on.getD []).find? (fun d => !(cfg.containsTask d)) = none := by
      rw [List.find?_eq_none]
      intro d hdq
      simp [hdeps (m, mt) (by simp) d hdq]
    cases hval : validateTask cfg m mt with
    | ok u =>
      cases u
      have hclean : ∀ p ∈ mt.parsers.getD [], cfg.containsParser p = true :=
        ((validateTask_ok_iff cfg m mt).mp hval).2
      have hex2 : ∃ q ∈ rest, ∃ p ∈ q.2.parsers.getD [], cfg.containsParser p = false := by
        obtain ⟨q, hq, p, hpq, hcp⟩ := hex
        rcases List.mem_cons.mp hq with h1 | h2
        · subst h1
          rw [hclean p hpq] at hcp
          cases hcp
        · exact ⟨q, h2, p, hpq, hcp⟩
      obtain ⟨n, tk, p, he, hm, hpp, hcc⟩ :=
        ih (fun q hq => hdeps q (List.mem_cons_of_mem _ hq)) hex2
      refine ⟨n, tk, p, ?_, List.mem_cons_of_mem _ hm, hpp, hcc⟩
      simp only [validateTasks, hval, he]
    | error e =>
      cases hps : mt.parsers with
      | none =>
        have : validateTask cfg m mt = .ok () := by
          rw [validateTask_ok_iff]
          refine ⟨fun d hdq => by simpa using (List.find?_eq_none.mp hfd) d hdq, ?_⟩
          intro p hp
          rw [hps] at hp
          cases hp
        rw [this] at hval
        cases hval
      | some ps =>
        cases hpm : cfg.parsers with
        | some pm =>
          cases hfp : ps.find? (fun p => !(pm.any (fun q => q.1 == p))) with
          | some p =>
            have hpmem : p ∈ ps := List.mem_of_find?_eq_some hfp
            have hcp : cfg.containsParser p = false := by
              rw [Config.containsParser.eq_def, hpm]
              simpa using List.find?_some hfp
            have heqT : validateTask cfg m mt = .error (.InvalidParser m p) := by
              simp only [validateTask, hfd, hps, hpm, hfp]
            refine ⟨m, mt, p, ?_, by simp, by rw [hps]; exact hpmem, hcp⟩
            simp only [validateTasks, heqT]
          | none =>
            have : validateTask cfg m mt = .ok () := by
              simp only [validateTask, hfd, hps, hpm, hfp]
            rw [this] at hval
            cases hval
        | none =>
          cases hpsnil : ps with
          | nil =>
            have : validateTask cfg m mt = .ok () := by
              simp only [validateTask, hfd, hps, hpm, hpsnil]
            rw [this] at hval
            cases hval
          | cons p prest =>
            have hcp : cfg.containsParser p = false := by
              rw [Config.containsParser.eq_def, hpm]
            have heqT : validateTask cfg m mt = .error (.InvalidParser m p) := by
              simp only [validateTask, hfd, hps, hpm, hpsnil]
            refine ⟨m, mt, p, ?_, by simp, by rw [hps, hpsnil]; simp, hcp⟩
            simp only [validateTasks, heqT]

theorem validate_err_dep {cfg : Config}
    (hd : danglingDeps cfg = true) (hp : danglingParsers cfg = false) :
    ∃ n tk d, cfg.validate = .error (.InvalidDependency n d) ∧
      (n, tk) ∈ cfg.tasks ∧ d ∈ tk.depends_on.getD [] ∧ cfg.containsTask d = false := by
  have hex := (danglingDeps_iff cfg).mp hd
  have hpars : ∀ q ∈ cfg.tasks, ∀ p ∈ q.2.parsers.getD [], cfg.containsParser p = true := by
    intro q hq p hpq
    by_contra hc
    have : danglingParsers cfg = true :=
      (danglingParsers_iff cfg).mpr ⟨q, hq, p, hpq, by simpa using hc⟩
    rw [this] at hp; cases hp
  exact validateTasks_err_dep cfg cfg.tasks hex hpars

theorem validate_parserFailure {cfg : Config}
    (hd : danglingDeps cfg = false) (hp : danglingParsers cfg = true) :
    ∃ n tk p, cfg.validate = .error (.InvalidParser n p) ∧
      (n, tk) ∈ cfg.tasks ∧ p ∈ tk.parsers.getD [] ∧ cfg.containsParser p = false := by
  have hex := (danglingParsers_iff cfg).mp hp
  have hdeps : ∀ q ∈ cfg.tasks, ∀ d ∈ q.2.depends_on.getD [], cfg.containsTask d = true := by
    intro q hq d hdq
    by_contra hc
    have : danglingDeps cfg = true :=
      (danglingDeps_iff cfg).mpr ⟨q, hq, d, hdq, by simpa using hc⟩
    rw [this] at hd; cases hd
  exact validateTasks_parserFailure cfg cfg.tasks hdeps hex

/-! ### The dependency closure -/

theorem addNew_nil (a : List String) : addNew a [] = a := rfl

theorem addNew_cons (a : List String) (d : String) (ds : List String) :
    addNew a (d :: ds) = addNew (if a.contains d then a else a ++ [d]) ds := rfl

theorem mem_addNew (xs : List String) : ∀ (a : List String) (y : String),
    y ∈ addNew a xs ↔ y ∈ a ∨ y ∈ xs := by
  induction xs with
  | nil => intro a y; simp [addNew]
  | cons d ds ih =>
    intro a y
    rw [addNew_cons, ih]
    by_cases hc : a.contains d = true
    · rw [if_pos hc]
      have hd : d ∈ a := by simpa using hc
      constructor
      · rintro (h | h)
        · exact Or.inl h
        · exact Or.inr (List.mem_cons_of_mem _ h)
      · rintro (h | h)
        · exact Or.inl h
        · rcases List.mem_cons.mp h with h1 | h2
          · rw [h1]; exact Or.inl hd
          · exact Or.inr h2
    · rw [if_neg hc]
      simp only [List.mem_append, List.mem_cons, List.mem_singleton]
      tauto

theorem nodup_addNew (xs : List String) : ∀ a : List String,
    a.Nodup → (addNew a xs).Nodup := by
  induction xs with
  | nil => intro a h; exact h
  | cons d ds ih =>
    intro a h
    rw [addNew_cons]
    by_cases hc : a.contains d = true
    · rw [if_pos hc]; exact ih a h
    · rw [if_neg hc]
      refine ih _ ?_
      have hd : d ∉ a := by simpa using hc
      exact (List.perm_append_singleton d a).symm.nodup (List.nodup_cons.mpr ⟨hd, h⟩)

theorem addNew_eq_of_subset (xs : List String) : ∀ a : List String,
    (∀ d ∈ xs, d ∈ a) → addNew a xs = a := by
  induction xs with
  | nil => intro a _; rfl
  | cons d ds ih =>
    intro a h
    rw [addNew_cons, if_pos (by simpa using h d (by simp))]
    exact ih a (fun x hx => h x (List.mem_cons_of_mem _ hx))

theorem closureStep_fold_mem (cfg : Config) (l : List String) :
    ∀ (a : List String) (y : String),
      y ∈ l.foldl (fun a x => addNew a (depsOf cfg x)) a ↔
        y ∈ a ∨ ∃ x ∈ l, y ∈ depsOf cfg x := by
  induction l with
  | nil => intro a y; simp
  | cons x xs ih =>
    intro a y
    rw [List.foldl_cons, ih, mem_addNew]
    simp only [List.mem_cons]
    constructor
    · rintro ((h | h) | ⟨z, hz, hy⟩)
      · exact Or.inl h
      · exact Or.inr ⟨x, Or.inl rfl, h⟩
      · exact Or.inr ⟨z, Or.inr hz, hy⟩
    · rintro (h | ⟨z, (hz | hz), hy⟩)
      · exact Or.inl (Or.inl h)
      · rw [hz] at hy
        exact Or.inl (Or.inr hy)
      · exact Or.inr ⟨z, hz, hy⟩

theorem closureStep_fold_nodup (cfg : Config) (l : List String) :
    ∀ a : List String, a.Nodup →
      (l.foldl (fun a x => addNew a (depsOf cfg x)) a).Nodup := by
  induction l with
  | nil => intro a h; exact h
  | cons x xs ih =>
    intro a h
    rw [List.foldl_cons]
    exact ih _ (nodup_addNew _ a h)

theorem mem_closureStep (cfg : Config) (s : List String) (y : String) :
    y ∈ closureStep cfg s ↔ y ∈ s ∨ ∃ x ∈ s, y ∈ depsOf cfg x :=
  closureStep_fold_mem cfg s s y

theorem subset_closureStep (cfg : Config) (s : List String) :
    s ⊆ closureStep cfg s := by
  intro y hy
  exact (mem_closureStep cfg s y).mpr (Or.inl hy)

theorem nodup_closureStep (cfg : Config) (s : List String) (h : s.Nodup) :
    (closureStep cfg s).Nodup :=
  closureStep_fold_nodup cfg s s h

theorem closureStep_eq_of_saturated {cfg : Config} {s : List String}
    (h : Saturated cfg s) : closureStep cfg s = s := by
  unfold closureStep
  have : ∀ l : List String, (∀ x ∈ l, ∀ d ∈ depsOf cfg x, d ∈ s) →
      l.foldl (fun a x => addNew a (depsOf cfg x)) s = s := by
    intro l
    induction l with
    | nil => intro _; rfl
    | cons x xs ih =>
      intro hl
      rw [List.foldl_cons, addNew_eq_of_subset _ s (hl x (by simp))]
      exact ih (fun z hz => hl z (List.mem_cons_of_mem _ hz))
  exact this s h

theorem closureIter_eq_of_saturated {cfg : Config} {s : List String}
    (h : Saturated cfg s) : ∀ n, closureIter cfg n s = s := by
  intro n
  induction n with
  | zero => rfl
  | succ m ih =>
    show closureIter cfg m (closureStep cfg s) = s
    rw [closureStep_eq_of_saturated h]
    exact ih

theorem subset_closureIter (cfg : Config) : ∀ (n : Nat) (s : List String),
    s ⊆ closureIter cfg n s := by
  intro n
  induction n with
  | zero => intro s; exact fun y hy => hy
  | succ m ih =>
    intro s
    exact fun y hy => ih (closureStep cfg s) (subset_closureStep cfg s hy)

theorem nodup_closureIter (cfg : Config) : ∀ (n : Nat) (s : List String),
    s.Nodup → (closureIter cfg n s).Nodup := by
  intro n
  induction n with
  | zero => intro s h; exact h
  | succ m ih =>
    intro s h
    exact ih (closureStep cfg s) (nodup_closureStep cfg s h)

theorem closureIter_subset (cfg : Config) (allowed : List String)
    (hdeps : ∀ x d, d ∈ depsOf cfg x → d ∈ allowed) :
    ∀ (n : Nat) (s : List String), s ⊆ allowed → closureIter cfg n s ⊆ allowed := by
  intro n
  induction n with
  | zero => intro s h; exact h
  | succ m ih =>
    intro s h
    refine ih (closureStep cfg s) ?_
    intro y hy
    rcases (mem_closureStep cfg s y).mp hy with h1 | ⟨x, _, h2⟩
    · exact h h1
    · exact hdeps x y h2

theorem closureIter_saturated (cfg : Config) (allowed : List String)
    (hdeps : ∀ x d, d ∈ depsOf cfg x → d ∈ allowed) :
    ∀ (n : Nat) (s : List String), s.Nodup → s ⊆ allowed →
      allowed.length + 1 ≤ n + s.length → Saturated cfg (closureIter cfg n s) := by
  intro n
  induction n with
  | zero =>
    intro s hnd hsub hlen
    have : s.length ≤ allowed.length :=
      (List.subperm_of_subset hnd hsub).length_le
    omega
  | succ m ih =>
    intro s hnd hsub hlen
    by_cases hsat : Saturated cfg s
    · rw [closureIter_eq_of_saturated hsat]
      exact hsat
    · show Saturated cfg (closureIter cfg m (closureStep cfg s))
      have hgrow : s.length < (closureStep cfg s).length := by
        unfold Saturated at hsat
        push_neg at hsat
        obtain ⟨x, hx, d, hd, hds⟩ := hsat
        have hdmem : d ∈ closureStep cfg s :=
          (mem_closureStep cfg s d).mpr (Or.inr ⟨x, hx, hd⟩)
        have hsubd : s ⊆ (closureStep cfg s).erase d := by
          intro y hy
          have hyne : y ≠ d := fun h => hds (h ▸ hy)
          exact (List.mem_erase_of_ne hyne).mpr (subset_closureStep cfg s hy)
        have h1 : s.length ≤ ((closureStep cfg s).erase d).length :=
          (List.subperm_of_subset hnd hsubd).length_le
        have h2 : ((closureStep cfg s).erase d).length = (closureStep cfg s).length - 1 :=
          List.length_erase_of_mem hdmem
        have h3 : 0 < (closureStep cfg s).length := List.length_pos.mpr
          (List.ne_nil_of_mem hdmem)
        omega
      refine ih (closureStep cfg s) (nodup_closureStep cfg s hnd) ?_ (by omega)
      intro y hy
      rcases (mem_closureStep cfg s y).mp hy with h1 | ⟨x, _, h2⟩
      · exact hsub h1
      · exact hdeps x y h2

/-! ### Reachability and the computed closure -/

theorem reach_snoc {cfg : Config} {t x d : String}
    (h : ReachDep cfg t x) : DepEdge cfg x d → ReachDep cfg t d := by
  induction h with
  | refl a => intro he; exact ReachDep.step he (ReachDep.refl d)
  | step h1 _ ih => intro he; exact ReachDep.step h1 (ih he)

theorem reach_mem_of_saturated {cfg : Config} {S : List String}
    (hsat : Saturated cfg S) {a y : String} (h : ReachDep cfg a y) :
    a ∈ S → y ∈ S := by
  induction h with
  | refl x => exact fun ha => ha
  | step h1 _ ih => exact fun ha => ih (hsat _ ha _ h1)

theorem not_reach_of_closed {cfg : Config} {S : List String} {a y : String}
    (hsat : Saturated cfg S) (ha : a ∈ S) (hy : y ∉ S) : ¬ ReachDep cfg a y :=
  fun h => hy (reach_mem_of_saturated hsat h ha)

theorem closureIter_reach (cfg : Config) (t : String) :
    ∀ (n : Nat) (s : List String), (∀ y ∈ s, ReachDep cfg t y) →
      ∀ y ∈ closureIter cfg n s, ReachDep cfg t y := by
  intro n
  induction n with
  | zero => intro s h; exact h
  | succ m ih =>
    intro s h
    refine ih (closureStep cfg s) ?_
    intro y hy
    rcases (mem_closureStep cfg s y).mp hy with h1 | ⟨x, hx, h2⟩
    · exact h y h1
    · exact reach_snoc (h x hx) h2

theorem closureList_nodup (cfg : Config) (t : String) : (closureList cfg t).Nodup :=
  nodup_closureIter cfg _ [t] (by simp)

theorem self_mem_closureList (cfg : Config) (t : String) : t ∈ closureList cfg t :=
  subset_closureIter cfg _ [t] (by simp)

theorem closureList_sound (cfg : Config) (t : String) :
    ∀ y ∈ closureList cfg t, ReachDep cfg t y :=
  closureIter_reach cfg t _ [t] (by
    intro y hy
    simp at hy
    rw [hy]
    exact ReachDep.refl t)

theorem closureList_saturated {cfg : Config} (hval : cfg.validate = .ok ()) (t : String) :
    Saturated cfg (closureList cfg t) := by
  have hdeps : ∀ x d, d ∈ depsOf cfg x → d ∈ t :: taskNames cfg :=
    fun x d hd => List.mem_cons_of_mem _ (deps_declared_of_validate_ok hval hd)
  refine closureIter_saturated cfg (t :: taskNames cfg) hdeps _ [t] (by simp) ?_ ?_
  · intro y hy
    simp at hy
    rw [hy]
    simp
  · simp only [List.length_cons, List.length_singleton, taskNames, List.length_map]
    omega

theorem closureList_complete {cfg : Config} (hval : cfg.validate = .ok ()) {t y : String}
    (h : ReachDep cfg t y) : y ∈ closureList cfg t :=
  reach_mem_of_saturated (closureList_saturated hval t) h (self_mem_closureList cfg t)

theorem rank_lt_of_depEdge {cfg : Config} (hval : cfg.validate = .ok ())
    (hacyc : Acyclic cfg) {x d : String} (he : DepEdge cfg x d) :
    (closureList cfg d).length < (closureList cfg x).length := by
  have hsub : closureList cfg d ⊆ (closureList cfg x).erase x := by
    intro y hy
    have hry : ReachDep cfg d y := closureList_sound cfg d y hy
    have hyx : y ∈ closureList cfg x := closureList_complete hval (ReachDep.step he hry)
    have hne : y ≠ x := by
      intro hcontra
      rw [hcontra] at hry
      exact hacyc x ⟨d, he, hry⟩
    exact (List.mem_erase_of_ne hne).mpr hyx
  have h1 : (closureList cfg d).length ≤ ((closureList cfg x).erase x).length :=
    (List.subperm_of_subset (closureList_nodup cfg d) hsub).length_le
  have h2 : ((closureList cfg x).erase x).length = (closureList cfg x).length - 1 :=
    List.length_erase_of_mem (self_mem_closureList cfg x)
  have h3 : 0 < (closureList cfg x).length :=
    List.length_pos.mpr (List.ne_nil_of_mem (self_mem_closureList cfg x))
  omega

theorem exists_min_rank (rank : String → Nat) :
    ∀ l : List String, l ≠ [] → ∃ x ∈ l, ∀ y ∈ l, rank x ≤ rank y := by
  intro l
  induction l with
  | nil => intro h; exact absurd rfl h
  | cons a as ih =>
    intro _
    by_cases hnil : as = []
    · refine ⟨a, by simp, ?_⟩
      intro y hy
      rw [hnil] at hy
      simp at hy
      rw [hy]
    · obtain ⟨x, hx, hmin⟩ := ih hnil
      by_cases hle : rank a ≤ rank x
      · refine ⟨a, by simp, ?_⟩
        intro y hy
        rcases List.mem_cons.mp hy with h1 | h2
        · rw [h1]
        · exact le_trans hle (hmin y h2)
      · refine ⟨x, List.mem_cons_of_mem _ hx, ?_⟩
        intro y hy
        rcases List.mem_cons.mp hy with h1 | h2
        · rw [h1]; omega
        · exact hmin y h2

/-! ### Sorting and positions -/

theorem insertSorted_perm (x : String) : ∀ l : List String, List.Perm (insertSorted x l) (x :: l) := by
  intro l
  induction l with
  | nil => exact List.Perm.refl _
  | cons y ys ih =>
    unfold insertSorted
    by_cases h : strLE x y = true
    · rw [if_pos h]
    · rw [if_neg h]
      exact (List.Perm.cons y ih).trans (List.Perm.swap x y ys)

theorem sortStrings_perm (l : List String) : List.Perm (sortStrings l) l := by
  induction l with
  | nil => exact List.Perm.refl _
  | cons x xs ih =>
    unfold sortStrings
    rw [List.foldr_cons]
    exact (insertSorted_perm x _).trans (List.Perm.cons x ih)

theorem posOf_append_left {l1 : List String} (l2 : List String) {d : String} (h : d ∈ l1) :
    posOf d (l1 ++ l2) < l1.length := by
  induction l1 with
  | nil => cases h
  | cons a as ih =>
    rw [List.cons_append]
    unfold posOf
    by_cases ha : a = d
    · rw [if_pos ha]; simp
    · rw [if_neg ha]
      have hd : d ∈ as := by
        rcases List.mem_cons.mp h with h1 | h2
        · exact absurd h1.symm ha
        · exact h2
      have := ih hd
      simp only [List.length_cons]
      omega

theorem posOf_append_cons {l1 : List String} (l2 : List String) {y : String} (h : y ∉ l1) :
    posOf y (l1 ++ y :: l2) = l1.length := by
  induction l1 with
  | nil => simp [posOf]
  | cons a as ih =>
    rw [List.cons_append]
    unfold posOf
    have ha : a ≠ y := by
      intro he
      exact h (by rw [← he]; exact List.mem_cons_self a as)
    rw [if_neg ha, ih (fun hy => h (List.mem_cons_of_mem _ hy))]
    simp

theorem posOf_lt_of_depsRespected {cfg : Config} {univ order : List String}
    (hresp : depsRespected cfg univ order) (hnd : order.Nodup)
    {x d : String} (hx : x ∈ order) (hd : d ∈ depsOf cfg x) (hdu : d ∈ univ) :
    posOf d order < posOf x order := by
  obtain ⟨l1, l2, heq⟩ := List.append_of_mem hx
  have hdl1 : d ∈ l1 := hresp l1 x l2 heq d hd hdu
  have hxnl1 : x ∉ l1 := by
    intro hx1
    rw [heq] at hnd
    rcases List.nodup_append.mp hnd with ⟨-, -, hdisj⟩
    exact hdisj hx1 (List.mem_cons_self x l2)
  rw [heq]
  calc posOf d (l1 ++ x :: l2) < l1.length := posOf_append_left _ hdl1
    _ = posOf x (l1 ++ x :: l2) := (posOf_append_cons _ hxnl1).symm

/-! ### Correctness of the topological sort -/

theorem depsRespectedRev_nil (cfg : Config) (univ : List String) :
    depsRespectedRev cfg univ [] := by
  intro a1 y a2 heq
  exact absurd heq (by simp)

theorem depsRespectedRev_cons {cfg : Config} {univ acc : List String} {x : String}
    (h : depsRespectedRev cfg univ acc)
    (hx : ∀ d ∈ depsOf cfg x, d ∈ univ → d ∈ acc) :
    depsRespectedRev cfg univ (x :: acc) := by
  intro a1 y a2 heq d hd hdu
  cases a1 with
  | nil =>
    simp only [List.nil_append] at heq
    injection heq with h1 h2
    rw [← h2]
    exact hx d (by rw [h1]; exact hd) hdu
  | cons b bs =>
    rw [List.cons_append] at heq
    injection heq with h1 h2
    exact h bs y a2 h2 d hd hdu

theorem depsRespected_reverse {cfg : Config} {univ acc : List String}
    (h : depsRespectedRev cfg univ acc) : depsRespected cfg univ acc.reverse := by
  intro l1 y l2 heq d hd hdu
  have hacc : acc = l2.reverse ++ y :: l1.reverse := by
    have h2 := congrArg List.reverse heq
    rw [List.reverse_reverse] at h2
    rw [h2]
    simp
  have := h _ y _ hacc d hd hdu
  simpa using this

theorem topoLoop_safety (cfg : Config) (univ : List String) :
    ∀ (n : Nat) (acc pending : List String),
      (acc ++ pending).Nodup →
      List.Perm (acc ++ pending) univ →
      depsRespectedRev cfg univ acc →
      (topoLoop cfg n acc pending).2 = true →
      List.Perm (topoLoop cfg n acc pending).1 univ ∧
        depsRespected cfg univ (topoLoop cfg n acc pending).1 ∧
        (topoLoop cfg n acc pending).1.Nodup := by
  intro n
  induction n with
  | zero =>
    intro acc pending hnd hperm hrev hfull
    simp only [topoLoop] at hfull ⊢
    rw [List.isEmpty_iff] at hfull
    rw [hfull] at hperm hnd
    rw [List.append_nil] at hperm hnd
    exact ⟨(List.reverse_perm acc).trans hperm, depsRespected_reverse hrev,
      by rw [List.nodup_reverse]; exact hnd⟩
  | succ m ih =>
    intro acc pending hnd hperm hrev hfull
    cases hf : pending.find? (readyTask cfg acc pending) with
    | none =>
      simp only [topoLoop, hf] at hfull ⊢
      rw [List.isEmpty_iff] at hfull
      rw [hfull] at hperm hnd
      rw [List.append_nil] at hperm hnd
      exact ⟨(List.reverse_perm acc).trans hperm, depsRespected_reverse hrev,
        by rw [List.nodup_reverse]; exact hnd⟩
    | some x =>
      have hxp : x ∈ pending := List.mem_of_find?_eq_some hf
      have hready : readyTask cfg acc pending x = true := List.find?_some hf
      have hpe : List.Perm pending (x :: pending.erase x) := List.perm_cons_erase hxp
      have hchain : List.Perm ((x :: acc) ++ pending.erase x) (acc ++ pending) := by
        have h1 : List.Perm (x :: (acc ++ pending.erase x)) (acc ++ x :: pending.erase x) :=
          List.perm_middle.symm

        have h2 : List.Perm (acc ++ x :: pending.erase x) (acc ++ pending) :=
          List.Perm.append_left acc hpe.symm
        exact h1.trans h2
      have hnd2 : ((x :: acc) ++ pending.erase x).Nodup := hchain.symm.nodup hnd
      have hperm2 : List.Perm ((x :: acc) ++ pending.erase x) univ := hchain.trans hperm
      have hx : ∀ d ∈ depsOf cfg x, d ∈ univ → d ∈ acc := by
        intro d hd hdu
        have hall := (by simpa [readyTask] using hready :
          ∀ d ∈ depsOf cfg x, d ∈ acc ∨ d ∉ pending)
        rcases hall d hd with h1 | h1
        · exact h1
        · have : d ∈ acc ++ pending := (hperm.symm.mem_iff).mp hdu
          rcases List.mem_append.mp this with h2 | h2
          · exact h2
          · exact absurd h2 h1
      have hrev2 : depsRespectedRev cfg univ (x :: acc) := depsRespectedRev_cons hrev hx
      simp only [topoLoop, hf] at hfull ⊢
      exact ih (x :: acc) (pending.erase x) hnd2 hperm2 hrev2 hfull

theorem topoLoop_progress (cfg : Config) (rank : String → Nat)
    (hrank : ∀ x d, d ∈ depsOf cfg x → rank d < rank x) :
    ∀ (n : Nat) (acc pending : List String), pending.length ≤ n →
      (topoLoop cfg n acc pending).2 = true := by
  intro n
  induction n with
  | zero =>
    intro acc pending hlen
    have hp : pending = [] := List.eq_nil_of_length_eq_zero (Nat.le_zero.mp hlen)
    simp [topoLoop, hp]
  | succ m ih =>
    intro acc pending hlen
    cases hf : pending.find? (readyTask cfg acc pending) with
    | none =>
      cases hpn : pending with
      | nil => simp [topoLoop, hf, hpn]
      | cons p ps =>
        exfalso
        obtain ⟨x, hx, hmin⟩ := exists_min_rank rank pending (by rw [hpn]; simp)
        have hxready : readyTask cfg acc pending x = true := by
          unfold readyTask
          rw [List.all_eq_true]
          intro d hd
          have h1 : rank d < rank x := hrank x d hd
          have h2 : d ∉ pending := by
            intro hdp
            have := hmin d hdp
            omega
          simp [h2]
        exact (List.find?_eq_none.mp hf x hx) hxready
    | some x =>
      have hxp : x ∈ pending := List.mem_of_find?_eq_some hf
      simp only [topoLoop, hf]
      refine ih (x :: acc) (pending.erase x) ?_
      have h1 := List.length_erase_of_mem hxp
      have h2 : 0 < pending.length := List.length_pos.mpr (List.ne_nil_of_mem hxp)
      omega

theorem get_exec_order_eq_of_full {cfg : Config} {t : String} (ht : cfg.has_task t = true)
    {order : List String}
    (hres : topoLoop cfg (sortStrings (closureList cfg t)).length []
      (sortStrings (closureList cfg t)) = (order, true)) :
    cfg.get_exec_order t = .ok order := by
  unfold Config.get_exec_order
  rw [if_pos ht]
  simp only [hres]

theorem get_exec_order_spec {cfg : Config} {t : String}
    (hval : cfg.validate = .ok ()) (hacyc : Acyclic cfg) (ht : cfg.has_task t = true) :
    ∃ order, cfg.get_exec_order t = .ok order ∧ order.Nodup ∧
      List.Perm order (closureList cfg t) ∧
      depsRespected cfg (closureList cfg t) order := by
  have hperm0 : List.Perm (sortStrings (closureList cfg t)) (closureList cfg t) :=
    sortStrings_perm _
  have hnd0 : (sortStrings (closureList cfg t)).Nodup :=
    hperm0.symm.nodup (closureList_nodup cfg t)
  have hfull : (topoLoop cfg (sortStrings (closureList cfg t)).length []
      (sortStrings (closureList cfg t))).2 = true :=
    topoLoop_progress cfg (fun x => (closureList cfg x).length)
      (fun x d hd => rank_lt_of_depEdge hval hacyc hd) _ [] _ le_rfl
  have hsafe := topoLoop_safety cfg (closureList cfg t)
    (sortStrings (closureList cfg t)).length [] (sortStrings (closureList cfg t))
    (by simpa using hnd0) (by simpa using hperm0)
    (depsRespectedRev_nil cfg _) hfull
  obtain ⟨hperm1, hresp1, hnd1⟩ := hsafe
  refine ⟨(topoLoop cfg (sortStrings (closureList cfg t)).length []
    (sortStrings (closureList cfg t))).1, ?_, hnd1, hperm1, hresp1⟩
  apply get_exec_order_eq_of_full ht
  cases hres : topoLoop cfg (sortStrings (closureList cfg t)).length []
      (sortStrings (closureList cfg t)) with
  | mk order full =>
    rw [hres] at hfull
    simp only at hfull
    rw [hfull]

theorem posOf_le_of_reach {cfg : Config} {t : String} (hval : cfg.validate = .ok ())
    {order : List String} (hperm : List.Perm order (closureList cfg t))
    (hresp : depsRespected cfg (closureList cfg t) order) (hnd : order.Nodup)
    {a b : String} (hr : ReachDep cfg a b) :
    a ∈ order → ReachDep cfg t a → posOf b order ≤ posOf a order := by
  induction hr with
  | refl x => exact fun _ _ => le_refl _
  | step h1 h2 ih =>
    intro hx hta
    rename_i x d y
    have htd : ReachDep cfg t d := reach_snoc hta h1
    have hdu : d ∈ closureList cfg t := closureList_complete hval htd
    have hdo : d ∈ order := hperm.mem_iff.mpr hdu
    have hlt : posOf d order < posOf x order :=
      posOf_lt_of_depsRespected hresp hnd hx h1 hdu
    have hle : posOf y order ≤ posOf d order := ih hdo htd
    omega

/-! ### The dependency edges of the concrete configurations -/

theorem depEdge_chainCfg {x d : String} (h : DepEdge chainCfg x d) :
    (x = "build" ∧ d = "install") ∨ (x = "test" ∧ d = "build") := by
  obtain ⟨tk, hg, hd⟩ := depsOf_mem h
  have hmem := get_task_mem hg
  simp only [chainCfg, List.mem_cons, List.not_mem_nil, or_false, Prod.mk.injEq] at hmem
  rcases hmem with ⟨hx, htk⟩ | ⟨hx, htk⟩ | ⟨hx, htk⟩ <;> rw [htk] at hd <;>
    simp only [mkTask, Option.getD_none, Option.getD_some, List.not_mem_nil,
      List.mem_singleton] at hd
  · exact Or.inl ⟨hx, hd⟩
  · exact Or.inr ⟨hx, hd⟩

theorem chainCfg_acyclic : Acyclic chainCfg := by
  intro x hx
  obtain ⟨e, he, hr⟩ := hx
  rcases depEdge_chainCfg he with ⟨hx1, he1⟩ | ⟨hx1, he1⟩
  · rw [hx1] at hr
    rw [he1] at hr
    have hsat : Saturated chainCfg ["install"] := by decide
    exact not_reach_of_closed hsat (by decide) (by decide) hr
  · rw [hx1] at hr
    rw [he1] at hr
    have hsat : Saturated chainCfg ["build", "install"] := by decide
    exact not_reach_of_closed hsat (by decide) (by decide) hr

theorem fanCfg_b_independent : ¬ TransDep fanCfg "b" "a" := by
  rintro ⟨e, he, -⟩
  have hb : depsOf fanCfg "b" = [] := by decide
  rw [DepEdge, hb] at he
  cases he

/-! ### The run loop -/

theorem run_not_found {cfg : Config} (spawn : String → List String → Option Int)
    {name : String} (h : cfg.has_task name = false) :
    run_task_with_deps cfg spawn name = ([], .error (.TaskNotFound name)) := by
  unfold run_task_with_deps
  rw [if_neg (by simp [h])]

theorem runLoop_stops_at_failure (cfg : Config) (spawn : String → List String → Option Int) :
    ∀ (l1 : List String) (f : String) (l2 : List String) (tkf : Task) (e : CmdError),
      (∀ x ∈ l1, ∃ tk, cfg.get_task x = some tk ∧ run_command spawn tk = .ok ()) →
      cfg.get_task f = some tkf → run_command spawn tkf = .error e →
      (runLoop cfg spawn (l1 ++ f :: l2)).1 = l1 ++ [f] ∧
        (runLoop cfg spawn (l1 ++ f :: l2)).2 = .error (.CommandError f e) := by
  intro l1
  induction l1 with
  | nil =>
    intro f l2 tkf e _ hgf hrf
    rw [List.nil_append]
    simp [runLoop, hgf, hrf]
  | cons a as ih =>
    intro f l2 tkf e h1 hgf hrf
    obtain ⟨tka, hga, hra⟩ := h1 a (by simp)
    have hrest := ih f l2 tkf e (fun x hx => h1 x (List.mem_cons_of_mem _ hx)) hgf hrf
    rw [List.cons_append]
    simp only [runLoop, hga, hra]
    constructor
    · rw [hrest.1]
      rfl
    · exact hrest.2

/-! ### Splitting the command line -/

theorem splitWs_of_all_ws {s : String} (h : ∀ c ∈ s.data, isUnicodeWs c) :
    splitWs s = [] := by
  have hfold : ∀ l : List Char, (∀ c ∈ l, isUnicodeWs c) →
      l.foldl splitWsStep ([], []) = ([], []) := by
    intro l
    induction l with
    | nil => intro _; rfl
    | cons c cs ih =>
      intro hl
      rw [List.foldl_cons]
      have hc : splitWsStep ([], []) c = ([], []) := by
        unfold splitWsStep
        rw [if_pos (hl c (by simp))]
      rw [hc]
      exact ih (fun x hx => hl x (List.mem_cons_of_mem _ hx))
  simp only [splitWs, hfold s.data h]

theorem run_command_empty {tk : Task} (h : splitWs tk.command = [])
    (spawn : String → List String → Option Int) :
    run_command spawn tk = .error .EmptyCommand := by
  simp only [run_command, h]

theorem run_command_spawn {tk : Task} {c : String} {args : List String} {code : Int}
    (spawn : String → List String → Option Int)
    (h : splitWs tk.command = c :: args) (hs : spawn c args = some code) :
    run_command spawn tk =
      if code = 0 then .ok () else .error (.CommandFailed tk.command code) := by
  simp only [run_command, h, hs]

/-! ### First match wins -/

theorem find?_first {α : Type} (p : α → Bool) (l1 : List α) (x : α) (l2 : List α)
    (h1 : ∀ q ∈ l1, p q = false) (hx : p x = true) :
    (l1 ++ x :: l2).find? p = some x := by
  induction l1 with
  | nil =>
    rw [List.nil_append]
    exact List.find?_cons_of_pos _ hx
  | cons a as ih =>
    rw [List.cons_append, List.find?_cons_of_neg _ (by simp [h1 a (by simp)])]
    exact ih (fun q hq => h1 q (List.mem_cons_of_mem _ hq))

theorem run_command_spawn_none {tk : Task} {c : String} {args : List String}
    (spawn : String → List String → Option Int)
    (h : splitWs tk.command = c :: args) (hs : spawn c args = none) :
    run_command spawn tk = .error (.SpawnFailed tk.command) := by
  simp only [run_command, h, hs]

/-! ### The claims -/

/-- C1: the claim states that a configuration whose dependency relation
contains a cycle (a depends on b, b depends on a) makes `load_from_string`
fail with `CircularDependency` regardless of declaration order.  The code
never performs the cycle check — `Config::validate` ends with the comment
`TODO: check for circular deps` and `ConfigError::CircularDependency` is
never constructed — so both declaration orders of the two-cycle load
successfully.  This theorem evaluates the code at the claim's own example
and exhibits the divergence. -/
theorem C1_cycle_not_detected :
    DepEdge cycCfgAB "a" "b" ∧ DepEdge cycCfgAB "b" "a" ∧
    cycCfgAB.load_from_string = .ok cycCfgAB ∧
    DepEdge cycCfgBA "a" "b" ∧ DepEdge cycCfgBA "b" "a" ∧
    cycCfgBA.load_from_string = .ok cycCfgBA := by
  refine ⟨?_, ?_, ?_, ?_, ?_, ?_⟩ <;> decide

/-- C5: validation fails with `InvalidDependency{task, dependency}` whenever
some task's `depends_on` names an undeclared task (and that is the kind of
dangling reference present), fails with `InvalidParser{task, parser}`
whenever some task's `parsers` names an undeclared parser — including when
no `parsers` section exists — and succeeds when every reference resolves;
any dangling reference of either kind makes validation fail.  (When both
kinds of dangling references occur, the single returned error is whichever
the task iteration reaches first, so the two error-shape conjuncts each
assume the other kind is absent.) -/
theorem C5_reference_validation (cfg : Config) :
    ((danglingDeps cfg = false ∧ danglingParsers cfg = false) → cfg.validate = .ok ()) ∧
    ((danglingDeps cfg = true ∧ danglingParsers cfg = false) →
      ∃ n tk d, cfg.validate = .error (.InvalidDependency n d) ∧
        (n, tk) ∈ cfg.tasks ∧ d ∈ tk.depends_on.getD [] ∧ cfg.containsTask d = false) ∧
    ((danglingParsers cfg = true ∧ danglingDeps cfg = false) →
      ∃ n tk p, cfg.validate = .error (.InvalidParser n p) ∧
        (n, tk) ∈ cfg.tasks ∧ p ∈ tk.parsers.getD [] ∧ cfg.containsParser p = false) ∧
    ((danglingDeps cfg = true ∨ danglingParsers cfg = true) →
      ∃ e, cfg.validate = .error e) := by
  refine ⟨fun h => validate_ok_of_no_dangling h.1 h.2,
    fun h => validate_err_dep h.1 h.2,
    fun h => validate_parserFailure h.2 h.1, ?_⟩
  intro h
  cases hv : cfg.validate with
  | error e => exact ⟨e, rfl⟩
  | ok u =>
    cases u
    obtain ⟨hd, hp⟩ := no_dangling_of_validate_ok hv
    rcases h with h | h
    · rw [hd] at h; cases h
    · rw [hp] at h; cases h

/-- Witness for C5: the valid test configuration passes validation, the
dangling-dependency configuration fails with `InvalidDependency`, and the
dangling-parser configuration fails with `InvalidParser`. -/
theorem C5_reference_validation_witness :
    cleanCfg.validate = .ok () ∧
    (∃ n tk d, badDepCfg.validate = .error (.InvalidDependency n d) ∧
      (n, tk) ∈ badDepCfg.tasks ∧ d ∈ tk.depends_on.getD [] ∧
      badDepCfg.containsTask d = false) ∧
    (∃ n tk p, badParserCfg.validate = .error (.InvalidParser n p) ∧
      (n, tk) ∈ badParserCfg.tasks ∧ p ∈ tk.parsers.getD [] ∧
      badParserCfg.containsParser p = false) :=
  ⟨(C5_reference_validation cleanCfg).1 ⟨by decide, by decide⟩,
   (C5_reference_validation badDepCfg).2.1 ⟨by decide, by decide⟩,
   (C5_reference_validation badParserCfg).2.2.1 ⟨by decide, by decide⟩⟩

/-- C6: when the spawned process runs and exits with `code`, `run_command`
returns the error carrying that exit code exactly when `code` is nonzero,
and succeeds exactly when `code` is zero. -/
theorem C6_exit_status (spawn : String → List String → Option Int) (tk : Task)
    (c : String) (args : List String) (code : Int)
    (hsplit : splitWs tk.command = c :: args) (hspawn : spawn c args = some code) :
    (run_command spawn tk = .error (.CommandFailed tk.command code) ↔ code ≠ 0) ∧
    (run_command spawn tk = .ok () ↔ code = 0) := by
  rw [run_command_spawn spawn hsplit hspawn]
  by_cases h : code = 0
  · rw [if_pos h]
    constructor
    · constructor
      · intro hcon; cases hcon
      · intro hne; exact absurd h hne
    · exact ⟨fun _ => h, fun _ => rfl⟩
  · rw [if_neg h]
    constructor
    · exact ⟨fun _ => h, fun _ => rfl⟩
    · constructor
      · intro hcon; cases hcon
      · intro he; exact absurd he h

/-- Witness for C6: a process exiting with code 1 yields the failure error
carrying 1, and not success. -/
theorem C6_exit_status_witness :
    (run_command (fun _ _ => some 1) yarnTask =
        .error (.CommandFailed yarnTask.command 1) ↔ (1 : Int) ≠ 0) ∧
    (run_command (fun _ _ => some 1) yarnTask = .ok () ↔ (1 : Int) = 0) :=
  C6_exit_status (fun _ _ => some 1) yarnTask "yarn" ["install"] 1 (by decide) rfl

/-- C7: a command that is empty or consists only of (Unicode) whitespace
makes `run_command` fail with the empty-command configuration error without
consulting the process spawner at all; a non-empty command is split on
whitespace, the executable is the first token and the arguments are the
remaining tokens — the spawner is invoked exactly at that pair. -/
theorem C7_command_splitting (tk : Task) :
    ((∀ c ∈ tk.command.data, isUnicodeWs c) →
      ∀ spawn : String → List String → Option Int,
        run_command spawn tk = .error .EmptyCommand) ∧
    (∀ (c : String) (args : List String), splitWs tk.command = c :: args →
      ∀ (spawn : String → List String → Option Int) (code : Int),
        spawn c args = some code →
        run_command spawn tk =
          if code = 0 then .ok () else .error (.CommandFailed tk.command code)) ∧
    (∀ (c : String) (args : List String), splitWs tk.command = c :: args →
      ∀ spawn : String → List String → Option Int,
        spawn c args = none →
        run_command spawn tk = .error (.SpawnFailed tk.command)) := by
  refine ⟨?_, ?_, ?_⟩
  · intro hws spawn
    exact run_command_empty (splitWs_of_all_ws hws) spawn
  · intro c args h spawn code hs
    exact run_command_spawn spawn h hs
  · intro c args h spawn hs
    exact run_command_spawn_none spawn h hs

/-- Witness for C7: the all-space command and the single-form-feed command
both error before spawning, and the two-token command runs its first token
with the second as argument. -/
theorem C7_command_splitting_witness :
    run_command (fun _ _ => some 0) wsTask = .error .EmptyCommand ∧
    run_command (fun _ _ => some 0) ffTask = .error .EmptyCommand ∧
    run_command (fun _ _ => some 0) yarnTask =
      (if (0 : Int) = 0 then .ok () else .error (.CommandFailed yarnTask.command 0)) :=
  ⟨(C7_command_splitting wsTask).1 (by decide) _,
   (C7_command_splitting ffTask).1 (by decide) _,
   (C7_command_splitting yarnTask).2.1 "yarn" ["install"] (by decide) _ 0 rfl⟩

/-- C8: requesting a task name that is not declared makes
`run_task_with_deps` return the task-not-found error with no task executed;
the error belongs to this invocation, not to configuration loading. -/
theorem C8_task_not_found (cfg : Config) (spawn : String → List String → Option Int)
    (name : String) (h : cfg.has_task name = false) :
    run_task_with_deps cfg spawn name = ([], .error (.TaskNotFound name)) :=
  run_not_found spawn h

/-- Witness for C8: the root-tasks configuration rejects the name
"missing" without running anything. -/
theorem C8_task_not_found_witness :
    run_task_with_deps rootCfg (fun _ _ => some 0) "missing" =
      ([], .error (.TaskNotFound "missing")) :=
  C8_task_not_found rootCfg (fun _ _ => some 0) "missing" (by decide)

/-- C9 counterexample: with a `global` section present that leaves
`max_parallel` unset, `get_global_config` returns `max_parallel = none` —
it does not default the field to 4, refuting "max_parallel defaults to 4
whenever it is absent" at this input. -/
theorem C9_counterexample :
    partialGlobalCfg.get_global_config.max_parallel ≠ some 4 := by
  decide

/-- C9 (amended): when the configuration omits the whole `global` section,
`get_global_config` yields the defaults log_level "info", max_parallel 4
and output_dir ".task-logs"; when a `global` section is present it is
returned unchanged, absent fields included. -/
theorem C9_global_defaults (cfg : Config) :
    (cfg.global = none → cfg.get_global_config =
      { log_level := some "info", max_parallel := some 4,
        output_dir := some ".task-logs" }) ∧
    (∀ g, cfg.global = some g → cfg.get_global_config = g) := by
  constructor
  · intro h
    rw [Config.get_global_config, h]
    rfl
  · intro g h
    rw [Config.get_global_config, h]
    rfl

/-- Witness for C9: a configuration with no `global` section yields the
three defaults. -/
theorem C9_global_defaults_witness :
    noGlobalCfg.get_global_config =
      { log_level := some "info", max_parallel := some 4,
        output_dir := some ".task-logs" } :=
  (C9_global_defaults noGlobalCfg).1 rfl

/-- C10: in a configuration accepted by validation, no task's `depends_on`
can mention an undeclared name, so `get_dependent_tasks` of an undeclared
name is empty. -/
theorem C10_dependents_of_undeclared (cfg : Config) (n : String)
    (hval : cfg.validate = .ok ()) (hn : cfg.containsTask n = false) :
    cfg.get_dependent_tasks n = [] := by
  have hfil : cfg.tasks.filter (fun q =>
      match q.2.depends_on with
      | none => false
      | some deps => deps.contains n) = [] := by
    rw [List.filter_eq_nil_iff]
    rw [Config.validate, validateTasks_ok_iff] at hval
    intro q hq
    cases hdo : q.2.depends_on with
    | none => simp [hdo]
    | some deps =>
      simp only [hdo]
      intro hcon
      have hmem : n ∈ deps := by simpa using hcon
      have := ((validateTask_ok_iff cfg q.1 q.2).mp (hval q hq)).1 n
        (by rw [hdo]; simpa using hmem)
      rw [this] at hn
      cases hn
  unfold Config.get_dependent_tasks
  rw [hfil]
  rfl

/-- Witness for C10: the validated root-tasks configuration has no task
depending on the undeclared name "missing". -/
theorem C10_dependents_of_undeclared_witness :
    rootCfg.get_dependent_tasks "missing" = [] :=
  C10_dependents_of_undeclared rootCfg "missing" (by decide) (by decide)

/-- C2: for every validated acyclic configuration and declared task `t`,
`get_exec_order` returns an order with no duplicate names that enumerates
exactly the dependency closure of `t` (the names reachable from `t`,
itself included) and places every strict transitive dependency of `t`
before `t`; on the chain install ← build ← test, the order for "test" is
[install, build, test]. -/
theorem C2_execution_order :
    (∀ (cfg : Config) (t : String), cfg.validate = .ok () → Acyclic cfg →
      cfg.has_task t = true →
      ∃ order, cfg.get_exec_order t = .ok order ∧
        order.Nodup ∧
        (∀ x, x ∈ order ↔ ReachDep cfg t x) ∧
        (∀ d, TransDep cfg t d → posOf d order < posOf t order)) ∧
    chainCfg.get_exec_order "test" = .ok ["install", "build", "test"] := by
  constructor
  · intro cfg t hval hacyc ht
    obtain ⟨order, heq, hnd, hperm, hresp⟩ := get_exec_order_spec hval hacyc ht
    refine ⟨order, heq, hnd, ?_, ?_⟩
    · intro x
      rw [hperm.mem_iff]
      exact ⟨closureList_sound cfg t x, closureList_complete hval⟩
    · rintro d ⟨e, he, hr⟩
      have hto : t ∈ order := hperm.mem_iff.mpr (self_mem_closureList cfg t)
      have hte : ReachDep cfg t e := ReachDep.step he (ReachDep.refl e)
      have heu : e ∈ closureList cfg t := closureList_complete hval hte
      have heo : e ∈ order := hperm.mem_iff.mpr heu
      have hlt : posOf e order < posOf t order :=
        posOf_lt_of_depsRespected hresp hnd hto he heu
      have hle : posOf d order ≤ posOf e order :=
        posOf_le_of_reach hval hperm hresp hnd hr heo hte
      omega
  · decide

/-- Witness for C2: the chain configuration instantiates the general
statement at the declared task "test". -/
theorem C2_execution_order_witness :
    ∃ order, chainCfg.get_exec_order "test" = .ok order ∧
      order.Nodup ∧
      (∀ x, x ∈ order ↔ ReachDep chainCfg "test" x) ∧
      (∀ d, TransDep chainCfg "test" d → posOf d order < posOf "test" order) :=
  C2_execution_order.1 chainCfg "test" (by decide) chainCfg_acyclic (by decide)

/-- C3 counterexample: in the fan-in configuration (t depends on the
independent tasks a and b), the execution order for t is [a, b, t]; when a
fails with exit code 1, the runner starts only a — b, which does not depend
on a, is never run, refuting "tasks in the order that do not depend on the
failed task still run to completion". -/
theorem C3_counterexample :
    fanCfg.get_exec_order "t" = .ok ["a", "b", "t"] ∧
    ¬ TransDep fanCfg "b" "a" ∧
    (run_task_with_deps fanCfg (fun c _ => if c = "ca" then some 1 else some 0) "t").1 =
      ["a"] ∧
    "b" ∉ (run_task_with_deps fanCfg
      (fun c _ => if c = "ca" then some 1 else some 0) "t").1 :=
  ⟨by decide, fanCfg_b_independent, by decide, by decide⟩

/-- C3 (amended): when a task of the execution order fails, no later task
of the order is started at all — neither the failed task's dependents nor
the tasks independent of it; the run stops at the first failure and
returns its error. -/
theorem C3_fail_fast (cfg : Config) (spawn : String → List String → Option Int)
    (name : String) (l1 : List String) (f : String) (l2 : List String)
    (tkf : Task) (e : CmdError)
    (hname : cfg.has_task name = true)
    (horder : cfg.get_exec_order name = .ok (l1 ++ f :: l2))
    (hnd : (l1 ++ f :: l2).Nodup)
    (h1 : ∀ x ∈ l1, ∃ tk, cfg.get_task x = some tk ∧ run_command spawn tk = .ok ())
    (hgf : cfg.get_task f = some tkf) (hrf : run_command spawn tkf = .error e) :
    (run_task_with_deps cfg spawn name).1 = l1 ++ [f] ∧
    (run_task_with_deps cfg spawn name).2 = .error (.CommandError f e) ∧
    ∀ x ∈ l2, x ∉ (run_task_with_deps cfg spawn name).1 := by
  have hloop := runLoop_stops_at_failure cfg spawn l1 f l2 tkf e h1 hgf hrf
  have heq : run_task_with_deps cfg spawn name = runLoop cfg spawn (l1 ++ f :: l2) := by
    unfold run_task_with_deps
    rw [if_pos hname]
    simp only [horder]
  rw [heq]
  refine ⟨hloop.1, hloop.2, ?_⟩
  intro x hx
  rw [hloop.1]
  rcases List.nodup_append.mp hnd with ⟨-, hnd2, hdisj⟩
  intro hmem
  rcases List.mem_append.mp hmem with hm1 | hm2
  · exact hdisj hm1 (List.mem_cons_of_mem _ hx)
  · have hxf : x = f := by simpa using hm2
    rcases List.nodup_cons.mp hnd2 with ⟨hf2, -⟩
    rw [hxf] at hx
    exact hf2 hx

/-- Witness for C3 (amended): in the fan-in configuration with a failing
first, only a runs; b and t are not started. -/
theorem C3_fail_fast_witness :
    (run_task_with_deps fanCfg
      (fun c _ => if c = "ca" then some 1 else some 0) "t").1 = [] ++ ["a"] ∧
    (run_task_with_deps fanCfg
      (fun c _ => if c = "ca" then some 1 else some 0) "t").2 =
        .error (.CommandError "a" (.CommandFailed "ca" 1)) ∧
    ∀ x ∈ ["b", "t"], x ∉ (run_task_with_deps fanCfg
      (fun c _ => if c = "ca" then some 1 else some 0) "t").1 :=
  C3_fail_fast fanCfg (fun c _ => if c = "ca" then some 1 else some 0) "t"
    [] "a" ["b", "t"] (mkTask "ca" none none) (.CommandFailed "ca" 1)
    (by decide) (by decide) (by decide) (by intro x hx; cases hx) (by decide) (by decide)

/-- C4: classification of a line against the patterns bound to a task tries
them in declared order; the first pattern whose regex matches fixes the
event's level, extraction and action, and the patterns after it are never
consulted — the result does not depend on them at all. -/
theorem C4_first_match_wins (rmatch : String → String → Bool)
    (cap : String → String → String) (cfg : Config) (tk : Task) (line : String)
    (l1 : List Pattern) (p : Pattern) (l2 : List Pattern)
    (hb : boundPatterns cfg tk = l1 ++ p :: l2)
    (h1 : ∀ q ∈ l1, rmatch q.regex line = false)
    (hp : rmatch p.regex line = true) :
    classify rmatch cap (boundPatterns cfg tk) line =
      { level := p.level, extracted := p.extract.map (fun f => (f, cap p.regex line)),
        action := p.action } ∧
    ∀ l2' : List Pattern,
      classify rmatch cap (l1 ++ p :: l2') line =
        classify rmatch cap (boundPatterns cfg tk) line := by
  have hc : ∀ l2' : List Pattern,
      classify rmatch cap (l1 ++ p :: l2') line =
        { level := p.level, extracted := p.extract.map (fun f => (f, cap p.regex line)),
          action := p.action } := by
    intro l2'
    simp only [classify, find?_first _ l1 p l2' h1 hp]
  constructor
  · rw [hb]
    exact hc l2
  · intro l2'
    rw [hb, hc l2', hc l2]

/-- Witness for C4: with both yarn-install patterns matching, the first
(warning) pattern determines the event, whatever follows it. -/
theorem C4_first_match_wins_witness :
    classify (fun _ _ => true) (fun _ _ => "m")
        (boundPatterns parserCfg devTask) "warning x" =
      { level := warnPat.level,
        extracted := warnPat.extract.map (fun f => (f, "m")),
        action := warnPat.action } ∧
    ∀ l2' : List Pattern,
      classify (fun _ _ => true) (fun _ _ => "m") ([] ++ warnPat :: l2') "warning x" =
        classify (fun _ _ => true) (fun _ _ => "m")
          (boundPatterns parserCfg devTask) "warning x" :=
  C4_first_match_wins (fun _ _ => true) (fun _ _ => "m") parserCfg devTask "warning x"
    [] warnPat [errPat] (by decide) (by intro q hq; cases hq) rfl

end Taskr
